import Mathlib

/-!
Verification of the HookGPT incremental tag-delimited stream parser.

This file shallowly embeds the streaming-extraction code of the HookGPT
frontend (`AgentFrontend/app/utils/streamUtils.ts`,
`AgentFrontend/app/components/ChatComponent.tsx`,
`AgentFrontend/app/components/HookCreationPage.tsx`) and proves properties of
the embedding.

Strings are modelled as `List Char`.  JavaScript regular-expression matching
is embedded by its observable semantics on the concrete patterns the code
uses: every pattern in the source is of the shape "literal, lazy gap,
literal, ...", for which leftmost-lazy matching coincides with iterated
first-occurrence search (each `[\s\S]*?` gap takes the *first* occurrence of
the following literal, and a failure at the first viable start position
implies failure at every later one, so no backtracking can change the
result).  Unicode-sensitive operations (`toLowerCase`, `trim`, `\s`) are
modelled on the ASCII range plus NBSP, which covers every character the
embedded claims quantify over.
-/

/-- Characters of a JavaScript string, in order. -/
abbrev Str := List Char

/-- View a Lean string literal as a character list. -/
def strOf (s : String) : Str := s.data

/-- `strStarts pat s` holds when `pat` occurs at the very beginning of `s`. -/
def strStarts : Str → Str → Bool
  | [], _ => true
  | _ :: _, [] => false
  | p :: ps, c :: cs => p == c && strStarts ps cs

/-- JS `String.prototype.indexOf(pat)`: index of the first occurrence of
`pat` in `s`, `none` when `pat` does not occur (`-1` in JS). -/
def findSub (pat : Str) : Str → Option Nat
  | [] => if strStarts pat [] then some 0 else none
  | c :: cs =>
    if strStarts pat (c :: cs) then some 0
    else (findSub pat cs).map (· + 1)

/-- JS `String.prototype.includes(pat)`. -/
def containsSub (pat s : Str) : Bool := (findSub pat s).isSome

/-- Whitespace recognised by JS `trim`, `\s` and `parseInt` (ASCII range
plus NBSP; the further Unicode space characters are not modelled). -/
def isJsSpace (c : Char) : Bool :=
  c = ' ' || c = '\t' || c = '\n' || c = '\r' || c = '\x0b' || c = '\x0c' ||
  c = ' '

/-- JS `String.prototype.trim()`. -/
def jsTrim (s : Str) : Str :=
  ((s.dropWhile isJsSpace).reverse.dropWhile isJsSpace).reverse

/-- JS `String.prototype.toLowerCase()` on one character (ASCII case map). -/
def jsLower (c : Char) : Char :=
  if 'A' ≤ c && c ≤ 'Z' then Char.ofNat (c.toNat + 32) else c

/-- JS `String.prototype.toLowerCase()`. -/
def lowerStr (s : Str) : Str := s.map jsLower

/-- Decimal digit test. -/
def isDecDigit (c : Char) : Bool := '0' ≤ c && c ≤ '9'

/-- Hexadecimal digit test. -/
def isHexDigit (c : Char) : Bool :=
  isDecDigit c || ('a' ≤ c && c ≤ 'f') || ('A' ≤ c && c ≤ 'F')

/-- Numeric value of a hexadecimal digit. -/
def hexVal (c : Char) : Nat :=
  if isDecDigit c then c.toNat - 48
  else if 'a' ≤ c && c ≤ 'f' then c.toNat - 87
  else c.toNat - 55

/-- Longest prefix of decimal digits, as a number; `none` when empty
(which `parseInt` reports as `NaN`). -/
def jsDecDigits (t : Str) : Option Nat :=
  let ds := t.takeWhile isDecDigit
  if ds.isEmpty then none
  else some (ds.foldl (fun a c => a * 10 + (c.toNat - 48)) 0)

/-- Longest prefix of hexadecimal digits, as a number; `none` when empty. -/
def jsHexDigits (t : Str) : Option Nat :=
  let ds := t.takeWhile isHexDigit
  if ds.isEmpty then none
  else some (ds.foldl (fun a c => a * 16 + hexVal c) 0)

/-- Unsigned part of JS `parseInt` with no radix argument: a `0x`/`0X`
prefix selects base 16, otherwise the longest decimal-digit prefix is
taken; no digits at all gives `NaN` (`none`). -/
def jsParseIntUnsigned (t : Str) : Option Nat :=
  match t with
  | '0' :: 'x' :: r => jsHexDigits r
  | '0' :: 'X' :: r => jsHexDigits r
  | _ => jsDecDigits t

/-- JS `parseInt(s)` with no radix argument.  `none` models `NaN`.  The
exact integer is kept (the float rounding of integers above 2^53 is not
modelled; no claim involves such values). -/
def jsParseInt (s : Str) : Option Int :=
  match s.dropWhile isJsSpace with
  | '-' :: r => (jsParseIntUnsigned r).map (fun n => -(n : Int))
  | '+' :: r => (jsParseIntUnsigned r).map (fun n => (n : Int))
  | r => (jsParseIntUnsigned r).map (fun n => (n : Int))

/-- The literal opening delimiter `<t>` of a tag. -/
def tagOpen (t : Str) : Str := '<' :: t ++ ['>']

/-- The literal closing delimiter `</t>` of a tag. -/
def tagClose (t : Str) : Str := '<' :: '/' :: t ++ ['>']

/-- First match of the regex `<t>([\s\S]*?)</t>` in `s`, returning the
captured group.  Leftmost-lazy matching on this pattern is: take the first
occurrence of the opening delimiter; the group runs to the first occurrence
of the closing delimiter after it.  (If the first opening delimiter has no
closing delimiter after it, no later one has either, so the regex fails.) -/
def firstTagMatch (t : Str) (s : Str) : Option Str :=
  match findSub (tagOpen t) s with
  | none => none
  | some i =>
    let rest := s.drop (i + (tagOpen t).length)
    match findSub (tagClose t) rest with
    | none => none
    | some j => some (rest.take j)

/-- Iterated (`g`-flagged) matching of `<t>([\s\S]*?)</t>`: after each
match the scan resumes right after the closing delimiter (`lastIndex`).
Groups that are empty strings are skipped (the `if (match[1])` truthiness
test in the source); the survivors are trimmed.  The fuel argument only
bounds the iteration count; `tagScanAll` supplies a sufficient bound. -/
def tagScanAllGo (t : Str) : Nat → Str → List Str
  | 0, _ => []
  | fuel + 1, s =>
    match findSub (tagOpen t) s with
    | none => []
    | some i =>
      let rest := s.drop (i + (tagOpen t).length)
      match findSub (tagClose t) rest with
      | none => []
      | some j =>
        let g := rest.take j
        let rem := rest.drop (j + (tagClose t).length)
        if g.isEmpty then tagScanAllGo t fuel rem
        else jsTrim g :: tagScanAllGo t fuel rem

/-- All matches of `<t>([\s\S]*?)</t>` (trimmed nonempty groups). -/
def tagScanAll (t s : Str) : List Str := tagScanAllGo t s.length s

/-- Iterated matching of the feature regex
`<feature>[\s\S]*?<name>([\s\S]*?)<\/name>[\s\S]*?<\/feature>` (`g`-flagged):
each lazy gap takes the first occurrence of the next literal; the whole
pattern fails as soon as one literal is missing (no later start can then
succeed either); the scan resumes after `</feature>`. -/
def featureScanGo : Nat → Str → List Str
  | 0, _ => []
  | fuel + 1, s =>
    match findSub (strOf "<feature>") s with
    | none => []
    | some i =>
      let r1 := s.drop (i + 9)
      match findSub (strOf "<name>") r1 with
      | none => []
      | some q =>
        let r2 := r1.drop (q + 6)
        match findSub (strOf "</name>") r2 with
        | none => []
        | some j =>
          let g := r2.take j
          let r3 := r2.drop (j + 7)
          match findSub (strOf "</feature>") r3 with
          | none => []
          | some e =>
            let rem := r3.drop (e + 10)
            if g.isEmpty then featureScanGo fuel rem
            else jsTrim g :: featureScanGo fuel rem

/-- All feature names extracted by the feature regex. -/
def featureScan (s : Str) : List Str := featureScanGo s.length s

/-- Characters matched by the class `[:\s]`. -/
def isColonSpace (c : Char) : Bool := c = ':' || isJsSpace c

/-- Alternation `(low|medium|high)` at the start of `r`. -/
def complexityKeyword (r : Str) : Option Str :=
  if strStarts (strOf "low") r then some (strOf "low")
  else if strStarts (strOf "medium") r then some (strOf "medium")
  else if strStarts (strOf "high") r then some (strOf "high")
  else none

/-- Continuation of the complexity regex after the literal `complexity`:
the greedy `[:\s]*` takes the maximal run (shorter runs would place a
`:`/space character where a keyword letter is required, so backtracking
cannot help), then one of the keywords must follow. -/
def complexityAfter (r : Str) : Option Str :=
  complexityKeyword (r.dropWhile isColonSpace)

/-- First match of `/complexity[:\s]*(low|medium|high)/`, scanning start
positions left to right. -/
def complexityScan : Str → Option Str
  | [] => none
  | c :: cs =>
    if strStarts (strOf "complexity") (c :: cs) then
      match complexityAfter ((c :: cs).drop 10) with
      | some k => some k
      | none => complexityScan cs
    else complexityScan cs

/-- The record assembled by the stream handler
(`UniswapHookData` in `app/types/agent`).  A field holds `none` when the
corresponding key is absent from the JS object.  `gasEstimate` stores
`some none` when the key is present with value `NaN`.  `replyContent`
models the `_replyContent` diagnostic key; the `_rawContent` diagnostic is
threaded separately (it is never stored in `lastParsedData`). -/
structure UniswapHookData where
  name : Option Str := none
  description : Option Str := none
  code : Option Str := none
  gasEstimate : Option (Option Int) := none
  complexity : Option Str := none
  functionalities : Option (List Str) := none
  dependencies : Option (List Str) := none
  testCode : Option Str := none
  examples : Option (List Str) := none
  hookType : Option Str := none
  version : Option Str := none
  replyContent : Option Str := none
  deriving Repr, DecidableEq

/-- One key of a JS object spread `{...a, ...b}`: `b` wins when the key is
present in `b`, else the key keeps `a`'s binding. -/
def mergeField {α : Type} (a b : Option α) : Option α :=
  match b with
  | some v => some v
  | none => a

/-- JS spread merge `{...a, ...b}` on the record. -/
def mergeData (a b : UniswapHookData) : UniswapHookData where
  name := mergeField a.name b.name
  description := mergeField a.description b.description
  code := mergeField a.code b.code
  gasEstimate := mergeField a.gasEstimate b.gasEstimate
  complexity := mergeField a.complexity b.complexity
  functionalities := mergeField a.functionalities b.functionalities
  dependencies := mergeField a.dependencies b.dependencies
  testCode := mergeField a.testCode b.testCode
  examples := mergeField a.examples b.examples
  hookType := mergeField a.hookType b.hookType
  version := mergeField a.version b.version
  replyContent := mergeField a.replyContent b.replyContent

/-- Scalar tag field of `extractTagsFromContent`: the field is assigned
only when the regex matches with a truthy (nonempty) group, and the stored
value is the trimmed group. -/
def tagScalarField (t : Str) (content : Str) : Option Str :=
  match firstTagMatch t content with
  | none => none
  | some g => if g.isEmpty then none else some (jsTrim g)

/-- The `gasEstimate` assignment: `parseInt` of the trimmed group.
`parseInt` never throws, so the surrounding `try`/`catch` in the source is
inert and a non-numeric group stores `NaN` (`some none`). -/
def gasEstimateField (content : Str) : Option (Option Int) :=
  match firstTagMatch (strOf "gasEstimate") content with
  | none => none
  | some g => if g.isEmpty then none else some (jsParseInt (jsTrim g))

/-- The `complexity` heuristic field. -/
def complexityField (content : Str) : Option Str :=
  complexityScan (lowerStr content)

/-- The `functionalities` list field (assigned only when nonempty). -/
def functionalitiesField (content : Str) : Option (List Str) :=
  let l := featureScan content
  if l.isEmpty then none else some l

/-- The `examples` list field (assigned only when nonempty). -/
def examplesField (content : Str) : Option (List Str) :=
  let l := tagScanAll (strOf "example") content
  if l.isEmpty then none else some l

/-- The fixed phrase list scanned for the hook type, in source order. -/
def hookTypes : List Str :=
  [strOf "before swap", strOf "after swap",
   strOf "before initialize", strOf "after initialize",
   strOf "before modify position", strOf "after modify position"]

/-- First phrase of `hookTypes` contained in the lowercased buffer. -/
def hookTypePhraseField (content : Str) : Option Str :=
  hookTypes.find? (fun p => containsSub p (lowerStr content))

/-- Value of the source's `foundAnyData` flag at the point of the
`hookType` default check (every extractor before the phrase loop). -/
def foundPreHook (content : Str) : Bool :=
  (tagScalarField (strOf "name") content).isSome ||
  (tagScalarField (strOf "description") content).isSome ||
  (tagScalarField (strOf "hookCode") content).isSome ||
  (gasEstimateField content).isSome ||
  (complexityField content).isSome ||
  (functionalitiesField content).isSome ||
  (tagScalarField (strOf "testCode") content).isSome ||
  (examplesField content).isSome

/-- The `hookType` field: first phrase found wins; otherwise `custom` when
any structured data preceded the check. -/
def hookTypeField (content : Str) : Option Str :=
  match hookTypePhraseField content with
  | some p => some p
  | none => if foundPreHook content then some (strOf "custom") else none

/-- Final value of `foundAnyData` (the `reply` extractor runs after the
`hookType` default check but before the null test). -/
def foundAnyData (content : Str) : Bool :=
  foundPreHook content || (hookTypePhraseField content).isSome ||
  (tagScalarField (strOf "reply") content).isSome

/-- `JsonStreamHandler.extractTagsFromContent`: one extraction pass over
the whole accumulated buffer, `none` when nothing at all was found. -/
def extractTagsFromContent (content : Str) : Option UniswapHookData :=
  if foundAnyData content then
    some
      { name := tagScalarField (strOf "name") content
        description := tagScalarField (strOf "description") content
        code := tagScalarField (strOf "hookCode") content
        gasEstimate := gasEstimateField content
        complexity := complexityField content
        functionalities := functionalitiesField content
        testCode := tagScalarField (strOf "testCode") content
        examples := examplesField content
        hookType := hookTypeField content
        replyContent := tagScalarField (strOf "reply") content }
  else none

/-- The extraction pass read as a plain record (`none` collapses to the
record with no keys). -/
def extractedRecord (content : Str) : UniswapHookData :=
  (extractTagsFromContent content).getD {}

/-- Mutable state of a `JsonStreamHandler` instance (the `lexer` field of
the source is constructed but never used for extraction, so it is not
modelled). -/
structure JsonStreamHandler where
  rawContent : Str := []
  lastParsedData : UniswapHookData := {}
  deriving Repr, DecidableEq

namespace JsonStreamHandler

/-- `processFragment`: append the fragment to the accumulated buffer, run
one extraction pass over the whole buffer, spread-merge any result into
`lastParsedData`, and return the updated record together with the
`_rawContent` diagnostic.  The body is wrapped in `try`/`catch` in the
source and no step of it throws, so the embedding is the total function. -/
def processFragment (h : JsonStreamHandler) (frag : Str) :
    JsonStreamHandler × UniswapHookData × Str :=
  let raw := h.rawContent ++ frag
  let last :=
    match extractTagsFromContent raw with
    | some hd => mergeData h.lastParsedData hd
    | none => h.lastParsedData
  ({ rawContent := raw, lastParsedData := last }, last, raw)

/-- `getFinalData`: copy `lastParsedData` and delete the diagnostic keys.
The source deletes `_replyContent` only when it is truthy, so an extracted
empty reply survives; `_rawContent` is never present in `lastParsedData`. -/
def getFinalData (h : JsonStreamHandler) : UniswapHookData :=
  { h.lastParsedData with
    replyContent :=
      match h.lastParsedData.replyContent with
      | some r => if r.isEmpty then some r else none
      | none => none }

end JsonStreamHandler

/-- A streaming session: a fresh handler fed the fragments in order. -/
def runFragments (frags : List Str) : JsonStreamHandler :=
  frags.foldl (fun h f => (h.processFragment f).1) {}

/-- Concatenation of all fragments of a session. -/
def joinStr (frags : List Str) : Str := frags.foldl (· ++ ·) []

/-- The completed-region test of `ChatComponent`
(`appendTagContentToReply` / `extractHookCode`): first occurrence of the
opening delimiter, first occurrence of the closing delimiter from
`startIdx`; on success the text before the opening delimiter, the enclosed
raw content, and the text after the closing delimiter. -/
def regionSplit (ot ct buf : Str) : Option (Str × Str × Str) :=
  match findSub ot buf with
  | none => none
  | some i =>
    let startIdx := i + ot.length
    match findSub ct (buf.drop startIdx) with
    | none => none
    | some j =>
      some (buf.take i, (buf.drop startIdx).take j,
            buf.drop (startIdx + j + ct.length))

/-- The `ChatComponent` streaming state touched by the tag-buffer loop:
`bufferRef`, `accumulatedReplyRef`, and the two `parsedContent` fields. -/
structure ChatState where
  buffer : Str := []
  accumulatedReply : Str := []
  parsedReply : Str := []
  parsedHook : Str := []
  deriving Repr, DecidableEq

/-- One extraction step of the `processBuffer` loop, with the source's
priority: a completed `reply` region first, else a completed `hookCode`
region, else nothing.  The step removes the region from the buffer
(prefix before the opening tag plus suffix after the closing tag) and, for
`hookCode`, also yields the re-wrapped payload handed to
`onReplyReceived`. -/
def chatStep (s : ChatState) : Option (ChatState × Option Str) :=
  match regionSplit (strOf "<reply>") (strOf "</reply>") s.buffer with
  | some (pre, mid, post) =>
    let content := jsTrim mid
    if content.isEmpty then some ({ s with buffer := pre ++ post }, none)
    else
      let acc := s.accumulatedReply ++ content
      some ({ s with buffer := pre ++ post, accumulatedReply := acc,
                     parsedReply := acc }, none)
  | none =>
    match regionSplit (strOf "<hookCode>") (strOf "</hookCode>") s.buffer with
    | some (pre, mid, post) =>
      let content := jsTrim mid
      if content.isEmpty then some ({ s with buffer := pre ++ post }, none)
      else
        some ({ s with buffer := pre ++ post, parsedHook := content },
              some (strOf "<hookCode>" ++ content ++ strOf "</hookCode>"))
    | none => none

/-- Iterated `chatStep`, collecting the emitted `hookCode` signals in
order.  The source implements this loop by recursion (`processBuffer` is
re-invoked after every removal and returns only when neither tag has a
completed region; at every decision point `reply` is re-tested before
`hookCode` on the current buffer, which is exactly this iteration).  Each
step strictly shortens the buffer, so `buffer.length` rounds of fuel make
the iteration run to its fixpoint. -/
def chatDrain : Nat → ChatState → ChatState × List Str
  | 0, s => (s, [])
  | fuel + 1, s =>
    match chatStep s with
    | none => (s, [])
    | some (s', sig) =>
      let r := chatDrain fuel s'
      (r.1, sig.toList ++ r.2)

/-- The `processBuffer` fixpoint loop of `ChatComponent`. -/
def processBufferModel (s : ChatState) : ChatState × List Str :=
  chatDrain s.buffer.length s

/-- The empty record template of `jsonUtils.getEmptyUniswapHookData`. -/
def getEmptyUniswapHookData : UniswapHookData :=
  { name := some [], description := some [], code := some [],
    hookType := some (strOf "custom"), functionalities := some [],
    dependencies := some [], complexity := some (strOf "medium"),
    version := some (strOf "1.0.0") }

/-- The combined `HookCreationPage` + `ChatComponent` state reached by the
synchronous processing of one stream frame.  `streamingHookRaw` models the
`_rawContent` key of the `streamingHookCode` object when present.
(React re-render effects — such as the `useEffect` that nulls the handler
reference after `isStreaming` flips — run after the synchronous frame step
and are outside this transition function.) -/
structure PageState where
  chat : ChatState := {}
  streamingReply : Str := []
  isStreamingReply : Bool := false
  isTyping : Bool := false
  streamError : Option Str := none
  pageError : Option Str := none
  isStreaming : Bool := false
  streamingComplete : Bool := false
  streamingHookCode : UniswapHookData := {}
  streamingHookRaw : Option Str := none
  isStreamingHookCode : Bool := false
  jsonData : UniswapHookData := getEmptyUniswapHookData
  handler : Option JsonStreamHandler := none
  deriving Repr, DecidableEq

/-- JS `Object.keys(streamingHookCode).length > 0`. -/
def hookViewHasKeys (p : PageState) : Bool :=
  !(p.streamingHookCode == ({} : UniswapHookData)) || p.streamingHookRaw.isSome

/-- The record built by `HookCreationPage.handleHookCodeData` from a
tagged payload whose `hookCode` group is `g`: the page's own scalar
extraction, with the `isNaN` guard on the gas estimate (unlike
`extractTagsFromContent`, a non-numeric gas value is dropped here). -/
def pageParsedData (content g : Str) : UniswapHookData :=
  { code := some (jsTrim g)
    name := tagScalarField (strOf "name") content
    description := tagScalarField (strOf "description") content
    gasEstimate :=
      match firstTagMatch (strOf "gasEstimate") content with
      | some gg =>
        if gg.isEmpty then none else (jsParseInt (jsTrim gg)).map some
      | none => none }

/-- `HookCreationPage.handleHookCodeData`: tagged payloads are parsed by
the page itself and replace `streamingHookCode` (and seed `jsonData` over
the empty template); anything else is fed to the `JsonStreamHandler`
(created on demand) and the returned view — with its `_rawContent` key —
becomes `streamingHookCode`. -/
def handleHookCodeData (p : PageState) (content : Str) : PageState :=
  let tagged := containsSub (strOf "<hookCode>") content &&
                containsSub (strOf "</hookCode>") content
  let viaTags : Option UniswapHookData :=
    if tagged then
      match firstTagMatch (strOf "hookCode") content with
      | some g => if g.isEmpty then none else some (pageParsedData content g)
      | none => none
    else none
  match viaTags with
  | some d =>
    { p with streamingHookCode := d, streamingHookRaw := none,
             isStreamingHookCode := true,
             jsonData := mergeData getEmptyUniswapHookData d }
  | none =>
    let h := p.handler.getD {}
    let res := h.processFragment content
    { p with handler := some res.1,
             streamingHookCode := res.2.1, streamingHookRaw := some res.2.2,
             isStreamingHookCode := true }

/-- ASCII letter test (the `[a-zA-Z]` class). -/
def isAsciiLetter (c : Char) : Bool :=
  ('a' ≤ c && c ≤ 'z') || ('A' ≤ c && c ≤ 'Z')

/-- Length of a match of `<\/?[a-zA-Z]+>` anchored at the head of `s`
(`none` when the head does not match). -/
def tagTokenLen (s : Str) : Option Nat :=
  match s with
  | '<' :: r =>
    let sr : Nat × Str := match r with
      | '/' :: r2 => (1, r2)
      | _ => (0, r)
    let letters := sr.2.takeWhile isAsciiLetter
    if letters.isEmpty then none
    else
      match sr.2.drop letters.length with
      | '>' :: _ => some (1 + sr.1 + letters.length + 1)
      | _ => none
  | _ => none

/-- JS `text.replace(/<\/?[a-zA-Z]+>/g, '')`: delete every leftmost
non-overlapping match, keep everything else. -/
def stripTagsGo : Nat → Str → Str
  | 0, s => s
  | _ + 1, [] => []
  | fuel + 1, c :: cs =>
    match tagTokenLen (c :: cs) with
    | some k => stripTagsGo fuel ((c :: cs).drop k)
    | none => c :: stripTagsGo fuel cs

/-- Tag-stripping used for the `streamingReply` display text. -/
def stripTags (s : Str) : Str := stripTagsGo s.length s

/-- `ChatComponent.processTextWithTypingEffect`: append the fragment to
the tag buffer, run the `processBuffer` loop (each emitted `hookCode`
signal invokes the page's `handleHookCodeData` in order), then append the
tag-stripped text to the display reply. -/
def processTextWithTypingEffect (p : PageState) (text : Str) : PageState :=
  let c0 := { p.chat with buffer := p.chat.buffer ++ text }
  let r := processBufferModel c0
  let p1 := { p with chat := r.1 }
  let p2 := r.2.foldl handleHookCodeData p1
  { p2 with streamingReply := p2.streamingReply ++ stripTags text,
            isTyping := true, isStreamingReply := true }

/-- `HookCreationPage.handleStreamingChange` (the `onStreamingChange`
callback). -/
def handleStreamingChange (p : PageState) (b : Bool) : PageState :=
  let p1 := { p with isStreaming := b }
  if b then
    { p1 with streamingComplete := false, streamingHookCode := {},
              streamingHookRaw := none }
  else
    let p2 := { p1 with streamingComplete := true }
    match p2.handler with
    | some h =>
      if hookViewHasKeys p2 then { p2 with jsonData := h.getFinalData }
      else p2
    | none => p2

/-- `ChatComponent.resetStreamingState`: ending a stream clears only the
display reply and the tag buffer; starting one also clears the
accumulated reply and the parsed content. -/
def resetStreamingState (p : PageState) (isStr : Bool) : PageState :=
  let p1 :=
    if isStr then
      { p with streamingReply := [],
               chat := { buffer := [], accumulatedReply := [],
                         parsedReply := [], parsedHook := [] } }
    else
      { p with streamingReply := [], chat := { p.chat with buffer := [] } }
  let p2 := { p1 with isStreamingReply := isStr, streamError := none,
                      isTyping := isStr }
  handleStreamingChange p2 isStr

/-- `ChatComponent.handleStreamError`: record the message, surface it to
the page (`onError`), then run the end-of-stream reset. -/
def handleStreamError (p : PageState) (msg : Str) : PageState :=
  let p1 := { p with streamError := some msg }
  let p2 := { p1 with pageError := some msg }
  resetStreamingState p2 false

/-- One framed stream event as classified by `processStreamEvents`. -/
inductive StreamChunk where
  | data (content : Str)
  | error (content : Str)
  deriving Repr, DecidableEq

/-- The `processStreamEvents` switch on one frame. -/
def processChunk (p : PageState) : StreamChunk → PageState
  | .data content => processTextWithTypingEffect p content
  | .error content => handleStreamError p content

/-- The record built by one full extraction pass over `content`
(every per-field extractor, the source's field layout). -/
def fullRecord (content : Str) : UniswapHookData where
  name := tagScalarField (strOf "name") content
  description := tagScalarField (strOf "description") content
  code := tagScalarField (strOf "hookCode") content
  gasEstimate := gasEstimateField content
  complexity := complexityField content
  functionalities := functionalitiesField content
  dependencies := none
  testCode := tagScalarField (strOf "testCode") content
  examples := examplesField content
  hookType := hookTypeField content
  version := none
  replyContent := tagScalarField (strOf "reply") content

/-! ### Basic facts about the string primitives -/

theorem strStarts_length {p s : Str} (h : strStarts p s = true) :
    p.length ≤ s.length := by
  induction p generalizing s with
  | nil => simp
  | cons a ps ih =>
    cases s with
    | nil => simp [strStarts] at h
    | cons c cs =>
      simp only [strStarts, Bool.and_eq_true] at h
      simpa using Nat.succ_le_succ (ih h.2)

theorem strStarts_append_mono {p s : Str} (q : Str)
    (h : strStarts p s = true) : strStarts p (s ++ q) = true := by
  induction p generalizing s with
  | nil => simp [strStarts]
  | cons a ps ih =>
    cases s with
    | nil => simp [strStarts] at h
    | cons c cs =>
      simp only [strStarts, Bool.and_eq_true] at h
      rw [List.cons_append]
      simp only [strStarts, Bool.and_eq_true]
      exact ⟨h.1, ih h.2⟩

theorem strStarts_append_eq {p s : Str} (q : Str) (h : p.length ≤ s.length) :
    strStarts p (s ++ q) = strStarts p s := by
  induction p generalizing s with
  | nil => cases s <;> simp [strStarts]
  | cons a ps ih =>
    cases s with
    | nil => simp at h
    | cons c cs =>
      have h' : ps.length ≤ cs.length := by
        simp only [List.length_cons] at h
        omega
      rw [List.cons_append]
      simp only [strStarts]
      congr 1
      exact ih h'

theorem strStarts_decomp {p s : Str} (h : strStarts p s = true) :
    s = p ++ s.drop p.length := by
  induction p generalizing s with
  | nil => simp
  | cons a ps ih =>
    cases s with
    | nil => simp [strStarts] at h
    | cons c cs =>
      simp only [strStarts, Bool.and_eq_true, beq_iff_eq] at h
      simpa [h.1] using ih h.2

theorem findSub_starts {p s : Str} {i : Nat} (h : findSub p s = some i) :
    strStarts p (s.drop i) = true := by
  induction s generalizing i with
  | nil =>
    simp only [findSub] at h
    split at h
    · cases h; simpa [strStarts] using ‹strStarts p [] = true›
    · cases h
  | cons c cs ih =>
    simp only [findSub] at h
    split at h
    · cases h; simpa using ‹strStarts p (c :: cs) = true›
    · cases hcs : findSub p cs with
      | none => rw [hcs] at h; cases h
      | some i' =>
        rw [hcs] at h
        simp only [Option.map_some'] at h
        cases h
        simpa using ih hcs

theorem findSub_le {p s : Str} {i : Nat} (h : findSub p s = some i) :
    i ≤ s.length := by
  induction s generalizing i with
  | nil =>
    simp only [findSub] at h
    split at h
    · cases h; simp
    · cases h
  | cons c cs ih =>
    simp only [findSub] at h
    split at h
    · cases h; simp
    · cases hcs : findSub p cs with
      | none => rw [hcs] at h; cases h
      | some i' =>
        rw [hcs] at h
        simp only [Option.map_some'] at h
        cases h
        simpa [Nat.succ_le_succ_iff] using ih hcs

theorem findSub_bound {p s : Str} {i : Nat} (h : findSub p s = some i) :
    i + p.length ≤ s.length := by
  have h1 := strStarts_length (findSub_starts h)
  rw [List.length_drop] at h1
  have h2 := findSub_le h
  omega

theorem findSub_append {p s : Str} {i : Nat} (q : Str)
    (h : findSub p s = some i) : findSub p (s ++ q) = some i := by
  induction s generalizing i with
  | nil =>
    simp only [findSub] at h
    split at h
    · rename_i hst
      cases h
      have hp : p = [] := by
        cases p with
        | nil => rfl
        | cons a ps => simp [strStarts] at hst
      subst hp
      cases q with
      | nil => simp [findSub, strStarts]
      | cons d ds => simp [findSub, strStarts]
    · cases h
  | cons c cs ih =>
    rw [List.cons_append]
    simp only [findSub] at h ⊢
    by_cases hh : strStarts p (c :: cs) = true
    · rw [if_pos hh] at h
      cases h
      have hmono := strStarts_append_mono q hh
      rw [List.cons_append] at hmono
      rw [if_pos hmono]
    · rw [if_neg hh] at h
      cases hcs : findSub p cs with
      | none => rw [hcs] at h; simp at h
      | some i' =>
        rw [hcs] at h
        simp only [Option.map_some'] at h
        cases h
        have hplen : p.length ≤ (c :: cs).length := by
          have := findSub_bound hcs
          simp only [List.length_cons]
          omega
        have hne : ¬ strStarts p (c :: (cs ++ q)) = true := by
          have heq := strStarts_append_eq q hplen
          rw [List.cons_append] at heq
          rw [heq]
          exact hh
        rw [if_neg hne, ih hcs]
        rfl

theorem containsSub_append {p s : Str} (q : Str)
    (h : containsSub p s = true) : containsSub p (s ++ q) = true := by
  unfold containsSub at h ⊢
  cases hf : findSub p s with
  | none => rw [hf] at h; simp at h
  | some i => rw [findSub_append q hf]; rfl

theorem containsSub_of_drop {p s : Str} {k j : Nat}
    (h : findSub p (s.drop k) = some j) : containsSub p s = true := by
  induction s generalizing k j with
  | nil =>
    simp only [List.drop_nil] at h
    unfold containsSub
    simp [h]
  | cons c cs ih =>
    cases k with
    | zero =>
      unfold containsSub
      simp only [List.drop_zero] at h
      simp [h]
    | succ k' =>
      simp only [List.drop_succ_cons] at h
      have hcs := ih h
      unfold containsSub at hcs ⊢
      cases hf : findSub p cs with
      | none => rw [hf] at hcs; simp at hcs
      | some i =>
        simp only [findSub]
        split
        · rfl
        · rw [hf]; rfl

/-! ### Stability of the single-match extractors under buffer extension

Appending new fragments to the buffer never changes an already completed
first match: the leftmost delimiters live inside the old prefix, and any
occurrence that only completes thanks to the appended text lies strictly
further right. -/

theorem firstTagMatch_append {t s g : Str} (q : Str)
    (h : firstTagMatch t s = some g) : firstTagMatch t (s ++ q) = some g := by
  simp only [firstTagMatch] at h ⊢
  cases ho : findSub (tagOpen t) s with
  | none => simp [ho] at h
  | some i =>
    simp only [ho] at h
    simp only [findSub_append q ho]
    have hb := findSub_bound ho
    rw [List.drop_append_of_le_length
      (by omega : i + (tagOpen t).length ≤ s.length)]
    cases hc : findSub (tagClose t) (s.drop (i + (tagOpen t).length)) with
    | none => simp [hc] at h
    | some j =>
      simp only [hc] at h
      simp only [findSub_append q hc]
      have hjb := findSub_bound hc
      rw [List.take_append_of_le_length
        (by omega : j ≤ (s.drop (i + (tagOpen t).length)).length)]
      exact h

theorem firstTagMatch_none_of_no_close {t s : Str}
    (h : containsSub (tagClose t) s = false) : firstTagMatch t s = none := by
  simp only [firstTagMatch]
  cases ho : findSub (tagOpen t) s with
  | none => simp [ho]
  | some i =>
    simp only [ho]
    cases hc : findSub (tagClose t) (s.drop (i + (tagOpen t).length)) with
    | none => simp [hc]
    | some j =>
      rw [containsSub_of_drop hc] at h
      cases h

theorem tagScalarField_append {t s v : Str} (q : Str)
    (h : tagScalarField t s = some v) : tagScalarField t (s ++ q) = some v := by
  simp only [tagScalarField] at h ⊢
  cases hm : firstTagMatch t s with
  | none => simp [hm] at h
  | some g =>
    simp only [hm] at h
    simp only [firstTagMatch_append q hm]
    exact h

theorem gasEstimateField_append {s : Str} {v : Option Int} (q : Str)
    (h : gasEstimateField s = some v) : gasEstimateField (s ++ q) = some v := by
  simp only [gasEstimateField] at h ⊢
  cases hm : firstTagMatch (strOf "gasEstimate") s with
  | none => simp [hm] at h
  | some g =>
    simp only [hm] at h
    simp only [firstTagMatch_append q hm]
    exact h

/-! ### The iterated scans: fuel adequacy and stability of nonemptiness -/

theorem tagOpen_length (t : Str) : (tagOpen t).length = t.length + 2 := by
  simp [tagOpen]

theorem tagClose_length (t : Str) : (tagClose t).length = t.length + 3 := by
  simp [tagClose]

theorem tagScanAllGo_nil (t : Str) (f : Nat) : tagScanAllGo t f [] = [] := by
  cases f with
  | zero => rfl
  | succ a => simp [tagScanAllGo, findSub, tagOpen, strStarts]

theorem tagScan_rem_lt {t s : Str} {i j : Nat}
    (ho : findSub (tagOpen t) s = some i)
    (hc : findSub (tagClose t) (s.drop (i + (tagOpen t).length)) = some j) :
    (((s.drop (i + (tagOpen t).length)).drop (j + (tagClose t).length)).length)
      < s.length := by
  have hb := findSub_bound ho
  have hjb := findSub_bound hc
  rw [List.length_drop] at hjb
  rw [List.length_drop, List.length_drop]
  rw [tagOpen_length] at hb ⊢
  rw [tagClose_length] at hjb ⊢
  omega

theorem tagScanAllGo_congr (t : Str) :
    ∀ n s fuel fuel', s.length ≤ n → s.length ≤ fuel → s.length ≤ fuel' →
      tagScanAllGo t fuel s = tagScanAllGo t fuel' s := by
  intro n
  induction n with
  | zero =>
    intro s fuel fuel' hn _ _
    have hs : s = [] := List.eq_nil_of_length_eq_zero (Nat.le_zero.mp hn)
    subst hs
    rw [tagScanAllGo_nil, tagScanAllGo_nil]
  | succ n ih =>
    intro s fuel fuel' hn hf hf'
    cases s with
    | nil => rw [tagScanAllGo_nil, tagScanAllGo_nil]
    | cons c cs =>
      cases fuel with
      | zero => simp at hf
      | succ a =>
        cases fuel' with
        | zero => simp at hf'
        | succ b =>
          simp only [tagScanAllGo]
          cases ho : findSub (tagOpen t) (c :: cs) with
          | none => simp [ho]
          | some i =>
            simp only [ho]
            cases hc : findSub (tagClose t)
                (((c :: cs).drop (i + (tagOpen t).length))) with
            | none => simp [hc]
            | some j =>
              simp only [hc]
              have hlt := tagScan_rem_lt ho hc
              have hrec := ih
                (((c :: cs).drop (i + (tagOpen t).length)).drop
                  (j + (tagClose t).length)) a b
                (by omega) (by omega) (by omega)
              rw [hrec]

theorem tagScanAll_eq (t s : Str) :
    tagScanAll t s =
      match findSub (tagOpen t) s with
      | none => []
      | some i =>
        match findSub (tagClose t) (s.drop (i + (tagOpen t).length)) with
        | none => []
        | some j =>
          if ((s.drop (i + (tagOpen t).length)).take j).isEmpty then
            tagScanAll t
              ((s.drop (i + (tagOpen t).length)).drop (j + (tagClose t).length))
          else
            jsTrim ((s.drop (i + (tagOpen t).length)).take j) ::
              tagScanAll t
                ((s.drop (i + (tagOpen t).length)).drop
                  (j + (tagClose t).length)) := by
  cases s with
  | nil =>
    rw [show tagScanAll t [] = [] from tagScanAllGo_nil t 0]
    simp [findSub, tagOpen, strStarts]
  | cons c cs =>
    show tagScanAllGo t ((c :: cs).length) (c :: cs) = _
    rw [show (c :: cs).length = cs.length + 1 from rfl]
    simp only [tagScanAllGo]
    cases ho : findSub (tagOpen t) (c :: cs) with
    | none => simp [ho]
    | some i =>
      simp only [ho]
      cases hc : findSub (tagClose t)
          ((c :: cs).drop (i + (tagOpen t).length)) with
      | none => simp [hc]
      | some j =>
        simp only [hc]
        have hlt := tagScan_rem_lt ho hc
        have hrec := tagScanAllGo_congr t
          (((c :: cs).drop (i + (tagOpen t).length)).drop
            (j + (tagClose t).length)).length
          (((c :: cs).drop (i + (tagOpen t).length)).drop
            (j + (tagClose t).length))
          cs.length
          (((c :: cs).drop (i + (tagOpen t).length)).drop
            (j + (tagClose t).length)).length
          le_rfl
          (by simp only [List.length_cons] at hlt; omega)
          le_rfl
        rw [hrec]
        rfl

theorem tagScanAll_append_ne_nil (t q : Str) :
    ∀ n s, s.length ≤ n → tagScanAll t s ≠ [] → tagScanAll t (s ++ q) ≠ [] := by
  intro n
  induction n with
  | zero =>
    intro s hn h
    have hs : s = [] := List.eq_nil_of_length_eq_zero (Nat.le_zero.mp hn)
    subst hs
    rw [show tagScanAll t [] = [] from tagScanAllGo_nil t 0] at h
    exact absurd rfl h
  | succ n ih =>
    intro s hn h
    rw [tagScanAll_eq] at h
    rw [tagScanAll_eq]
    cases ho : findSub (tagOpen t) s with
    | none => simp [ho] at h
    | some i =>
      simp only [ho] at h
      simp only [findSub_append q ho]
      have hb := findSub_bound ho
      rw [List.drop_append_of_le_length
        (by omega : i + (tagOpen t).length ≤ s.length)]
      cases hc : findSub (tagClose t) (s.drop (i + (tagOpen t).length)) with
      | none => simp [hc] at h
      | some j =>
        simp only [hc] at h
        simp only [findSub_append q hc]
        have hjb := findSub_bound hc
        rw [List.take_append_of_le_length
          (by omega : j ≤ (s.drop (i + (tagOpen t).length)).length)]
        rw [List.drop_append_of_le_length
          (by omega : j + (tagClose t).length
            ≤ (s.drop (i + (tagOpen t).length)).length)]
        have hlt := tagScan_rem_lt ho hc
        by_cases hg : ((s.drop (i + (tagOpen t).length)).take j).isEmpty
        · rw [if_pos hg] at h
          rw [if_pos hg]
          exact ih _ (by omega) h
        · rw [if_neg hg]
          simp

theorem featureScanGo_nil (f : Nat) : featureScanGo f [] = [] := by
  cases f with
  | zero => rfl
  | succ a => simp [featureScanGo, findSub, strOf, strStarts]

theorem featureScan_rem_lt {s : Str} {i q j e : Nat}
    (ho : findSub (strOf "<feature>") s = some i)
    (h1 : findSub (strOf "<name>") (s.drop (i + 9)) = some q)
    (h2 : findSub (strOf "</name>")
      ((s.drop (i + 9)).drop (q + 6)) = some j)
    (h3 : findSub (strOf "</feature>")
      (((s.drop (i + 9)).drop (q + 6)).drop (j + 7)) = some e) :
    ((((s.drop (i + 9)).drop (q + 6)).drop (j + 7)).drop (e + 10)).length
      < s.length := by
  have b0 := findSub_bound ho
  have b1 := findSub_bound h1
  have b2 := findSub_bound h2
  have b3 := findSub_bound h3
  have l0 : (strOf "<feature>").length = 9 := rfl
  have l1 : (strOf "<name>").length = 6 := rfl
  have l2 : (strOf "</name>").length = 7 := rfl
  have l3 : (strOf "</feature>").length = 10 := rfl
  rw [l0] at b0
  rw [l1, List.length_drop] at b1
  rw [l2, List.length_drop, List.length_drop] at b2
  rw [l3, List.length_drop, List.length_drop, List.length_drop] at b3
  simp only [List.length_drop]
  omega

theorem featureScanGo_congr :
    ∀ n s fuel fuel', s.length ≤ n → s.length ≤ fuel → s.length ≤ fuel' →
      featureScanGo fuel s = featureScanGo fuel' s := by
  intro n
  induction n with
  | zero =>
    intro s fuel fuel' hn _ _
    have hs : s = [] := List.eq_nil_of_length_eq_zero (Nat.le_zero.mp hn)
    subst hs
    rw [featureScanGo_nil, featureScanGo_nil]
  | succ n ih =>
    intro s fuel fuel' hn hf hf'
    cases s with
    | nil => rw [featureScanGo_nil, featureScanGo_nil]
    | cons c cs =>
      cases fuel with
      | zero => simp at hf
      | succ a =>
        cases fuel' with
        | zero => simp at hf'
        | succ b =>
          simp only [featureScanGo]
          cases ho : findSub (strOf "<feature>") (c :: cs) with
          | none => simp [ho]
          | some i =>
            simp only [ho]
            cases h1 : findSub (strOf "<name>") ((c :: cs).drop (i + 9)) with
            | none => simp [h1]
            | some q =>
              simp only [h1]
              cases h2 : findSub (strOf "</name>")
                  (((c :: cs).drop (i + 9)).drop (q + 6)) with
              | none => simp [h2]
              | some j =>
                simp only [h2]
                cases h3 : findSub (strOf "</feature>")
                    ((((c :: cs).drop (i + 9)).drop (q + 6)).drop (j + 7)) with
                | none => simp [h3]
                | some e =>
                  simp only [h3]
                  have hlt := featureScan_rem_lt ho h1 h2 h3
                  have hrec := ih
                    (((((c :: cs).drop (i + 9)).drop (q + 6)).drop
                      (j + 7)).drop (e + 10)) a b
                    (by omega) (by omega) (by omega)
                  rw [hrec]

theorem featureScan_eq (s : Str) :
    featureScan s =
      match findSub (strOf "<feature>") s with
      | none => []
      | some i =>
        match findSub (strOf "<name>") (s.drop (i + 9)) with
        | none => []
        | some q =>
          match findSub (strOf "</name>") ((s.drop (i + 9)).drop (q + 6)) with
          | none => []
          | some j =>
            match findSub (strOf "</feature>")
                (((s.drop (i + 9)).drop (q + 6)).drop (j + 7)) with
            | none => []
            | some e =>
              if (((s.drop (i + 9)).drop (q + 6)).take j).isEmpty then
                featureScan
                  ((((s.drop (i + 9)).drop (q + 6)).drop (j + 7)).drop (e + 10))
              else
                jsTrim (((s.drop (i + 9)).drop (q + 6)).take j) ::
                  featureScan
                    ((((s.drop (i + 9)).drop (q + 6)).drop (j + 7)).drop
                      (e + 10)) := by
  cases s with
  | nil =>
    rw [show featureScan [] = [] from featureScanGo_nil 0]
    simp [findSub, strOf, strStarts]
  | cons c cs =>
    show featureScanGo ((c :: cs).length) (c :: cs) = _
    rw [show (c :: cs).length = cs.length + 1 from rfl]
    simp only [featureScanGo]
    cases ho : findSub (strOf "<feature>") (c :: cs) with
    | none => simp [ho]
    | some i =>
      simp only [ho]
      cases h1 : findSub (strOf "<name>") ((c :: cs).drop (i + 9)) with
      | none => simp [h1]
      | some q =>
        simp only [h1]
        cases h2 : findSub (strOf "</name>")
            (((c :: cs).drop (i + 9)).drop (q + 6)) with
        | none => simp [h2]
        | some j =>
          simp only [h2]
          cases h3 : findSub (strOf "</feature>")
              ((((c :: cs).drop (i + 9)).drop (q + 6)).drop (j + 7)) with
          | none => simp [h3]
          | some e =>
            simp only [h3]
            have hlt := featureScan_rem_lt ho h1 h2 h3
            have hrec := featureScanGo_congr
              (((((c :: cs).drop (i + 9)).drop (q + 6)).drop (j + 7)).drop
                (e + 10)).length
              (((((c :: cs).drop (i + 9)).drop (q + 6)).drop (j + 7)).drop
                (e + 10))
              cs.length
              (((((c :: cs).drop (i + 9)).drop (q + 6)).drop (j + 7)).drop
                (e + 10)).length
              le_rfl (by simp only [List.length_cons] at hlt; omega) le_rfl
            rw [hrec]
            rfl

theorem featureScan_append_ne_nil (p : Str) :
    ∀ n s, s.length ≤ n → featureScan s ≠ [] → featureScan (s ++ p) ≠ [] := by
  intro n
  induction n with
  | zero =>
    intro s hn h
    have hs : s = [] := List.eq_nil_of_length_eq_zero (Nat.le_zero.mp hn)
    subst hs
    rw [show featureScan [] = [] from featureScanGo_nil 0] at h
    exact absurd rfl h
  | succ n ih =>
    intro s hn h
    rw [featureScan_eq] at h
    rw [featureScan_eq]
    cases ho : findSub (strOf "<feature>") s with
    | none => simp [ho] at h
    | some i =>
      simp only [ho] at h
      simp only [findSub_append p ho]
      have b0 := findSub_bound ho
      have l0 : (strOf "<feature>").length = 9 := rfl
      rw [l0] at b0
      rw [List.drop_append_of_le_length (by omega : i + 9 ≤ s.length)]
      cases h1 : findSub (strOf "<name>") (s.drop (i + 9)) with
      | none => simp [h1] at h
      | some q =>
        simp only [h1] at h
        simp only [findSub_append p h1]
        have b1 := findSub_bound h1
        have l1 : (strOf "<name>").length = 6 := rfl
        rw [l1] at b1
        rw [List.drop_append_of_le_length
          (by omega : q + 6 ≤ (s.drop (i + 9)).length)]
        cases h2 : findSub (strOf "</name>")
            ((s.drop (i + 9)).drop (q + 6)) with
        | none =>
          simp only [h2] at h
          exact absurd rfl h
        | some j =>
          simp only [h2] at h
          simp only [findSub_append p h2]
          have b2 := findSub_bound h2
          have l2 : (strOf "</name>").length = 7 := rfl
          rw [l2] at b2
          rw [List.take_append_of_le_length
            (by omega : j ≤ ((s.drop (i + 9)).drop (q + 6)).length)]
          rw [List.drop_append_of_le_length
            (by omega : j + 7 ≤ ((s.drop (i + 9)).drop (q + 6)).length)]
          cases h3 : findSub (strOf "</feature>")
              ((((s.drop (i + 9)).drop (q + 6)).drop (j + 7))) with
          | none =>
            simp only [h3] at h
            exact absurd rfl h
          | some e =>
            simp only [h3] at h
            simp only [findSub_append p h3]
            have b3 := findSub_bound h3
            have l3 : (strOf "</feature>").length = 10 := rfl
            rw [l3] at b3
            rw [List.drop_append_of_le_length
              (by omega :
                e + 10 ≤ (((s.drop (i + 9)).drop (q + 6)).drop (j + 7)).length)]
            have hlt := featureScan_rem_lt ho h1 h2 h3
            by_cases hg : (((s.drop (i + 9)).drop (q + 6)).take j).isEmpty
            · rw [if_pos hg] at h
              rw [if_pos hg]
              exact ih _ (by omega) h
            · rw [if_neg hg]
              simp

theorem dropWhile_append_of_ne_nil {p : Char → Bool} {l₁ : Str} (l₂ : Str)
    (h : l₁.dropWhile p ≠ []) :
    (l₁ ++ l₂).dropWhile p = l₁.dropWhile p ++ l₂ := by
  induction l₁ with
  | nil => simp [List.dropWhile] at h
  | cons c cs ih =>
    simp only [List.cons_append, List.dropWhile_cons] at h ⊢
    by_cases hc : p c = true
    · rw [if_pos hc] at h
      rw [if_pos hc, if_pos hc]
      exact ih h
    · rw [if_neg hc, if_neg hc]
      simp

theorem complexityKeyword_isSome_append (q : Str) {d : Str}
    (h : (complexityKeyword d).isSome = true) :
    (complexityKeyword (d ++ q)).isSome = true := by
  unfold complexityKeyword at h ⊢
  by_cases h1 : strStarts (strOf "low") d = true
  · rw [if_pos (strStarts_append_mono q h1)]
    rfl
  · by_cases h1' : strStarts (strOf "low") (d ++ q) = true
    · rw [if_pos h1']
      rfl
    · rw [if_neg h1', if_neg h1] at *
      by_cases h2 : strStarts (strOf "medium") d = true
      · rw [if_pos (strStarts_append_mono q h2)]
        rfl
      · by_cases h2' : strStarts (strOf "medium") (d ++ q) = true
        · rw [if_pos h2']
          rfl
        · rw [if_neg h2'] at *
          rw [if_neg h2] at h
          by_cases h3 : strStarts (strOf "high") d = true
          · rw [if_pos (strStarts_append_mono q h3)]
            rfl
          · rw [if_neg h3] at h
            simp at h

theorem complexityAfter_isSome_append (q : Str) {r : Str}
    (h : (complexityAfter r).isSome = true) :
    (complexityAfter (r ++ q)).isSome = true := by
  unfold complexityAfter at h ⊢
  have hd : r.dropWhile isColonSpace ≠ [] := by
    intro he
    rw [he] at h
    simp [complexityKeyword, strOf, strStarts] at h
  rw [dropWhile_append_of_ne_nil q hd]
  exact complexityKeyword_isSome_append q h

theorem complexityScan_isSome_append (q : Str) :
    ∀ s, (complexityScan s).isSome = true →
      (complexityScan (s ++ q)).isSome = true := by
  intro s
  induction s with
  | nil => simp [complexityScan]
  | cons c cs ih =>
    intro h
    simp only [complexityScan] at h
    rw [List.cons_append]
    simp only [complexityScan]
    by_cases hst : strStarts (strOf "complexity") (c :: cs) = true
    · rw [if_pos hst] at h
      have hst' : strStarts (strOf "complexity") (c :: (cs ++ q)) = true := by
        have := strStarts_append_mono q hst
        rwa [List.cons_append] at this
      rw [if_pos hst']
      have hlen : (10 : Nat) ≤ (c :: cs).length := by
        have h10 := strStarts_length hst
        have hl : (strOf "complexity").length = 10 := rfl
        omega
      have hdrop : (c :: (cs ++ q)).drop 10 = (c :: cs).drop 10 ++ q := by
        rw [← List.cons_append]
        exact List.drop_append_of_le_length hlen
      rw [hdrop]
      cases ha : complexityAfter ((c :: cs).drop 10) with
      | some k =>
        have hsome := complexityAfter_isSome_append q (r := (c :: cs).drop 10)
          (by rw [ha]; rfl)
        cases hb : complexityAfter ((c :: cs).drop 10 ++ q) with
        | none => rw [hb] at hsome; cases hsome
        | some k' => simp [hb]
      | none =>
        rw [ha] at h
        cases hb : complexityAfter ((c :: cs).drop 10 ++ q) with
        | some k' => simp [hb]
        | none =>
          simp only [hb]
          exact ih h
    · rw [if_neg hst] at h
      by_cases hst' : strStarts (strOf "complexity") (c :: (cs ++ q)) = true
      · rw [if_pos hst']
        cases hb : complexityAfter ((c :: (cs ++ q)).drop 10) with
        | some k' => simp [hb]
        | none =>
          simp only [hb]
          exact ih h
      · rw [if_neg hst']
        exact ih h

/-! ### Monotonicity of the extraction pass, and the session invariant -/

theorem isSome_of_eq_some {α : Type} {x : Option α} {v : α} (h : x = some v) :
    x.isSome = true := by
  rw [h]
  rfl

theorem eq_none_of_isSome_false {α : Type} {x : Option α}
    (h : x.isSome = false) : x = none := by
  cases x with
  | none => rfl
  | some v => simp at h

theorem tagScalarField_isSome_append {t s : Str} (q : Str)
    (h : (tagScalarField t s).isSome = true) :
    (tagScalarField t (s ++ q)).isSome = true := by
  cases hm : tagScalarField t s with
  | none => rw [hm] at h; cases h
  | some v => exact isSome_of_eq_some (tagScalarField_append q hm)

theorem gasEstimateField_isSome_append {s : Str} (q : Str)
    (h : (gasEstimateField s).isSome = true) :
    (gasEstimateField (s ++ q)).isSome = true := by
  cases hm : gasEstimateField s with
  | none => rw [hm] at h; cases h
  | some v => exact isSome_of_eq_some (gasEstimateField_append q hm)

theorem complexityField_isSome_append {s : Str} (q : Str)
    (h : (complexityField s).isSome = true) :
    (complexityField (s ++ q)).isSome = true := by
  unfold complexityField at h ⊢
  rw [lowerStr, List.map_append]
  exact complexityScan_isSome_append (lowerStr q) (lowerStr s) h

theorem functionalitiesField_isSome_append {s : Str} (q : Str)
    (h : (functionalitiesField s).isSome = true) :
    (functionalitiesField (s ++ q)).isSome = true := by
  unfold functionalitiesField at h ⊢
  by_cases he : (featureScan s).isEmpty = true
  · rw [if_pos he] at h
    cases h
  · have hne : featureScan s ≠ [] := by
      simpa [List.isEmpty_iff] using he
    have hne' := featureScan_append_ne_nil q s.length s le_rfl hne
    rw [if_neg (by simpa [List.isEmpty_iff] using hne')]
    rfl

theorem examplesField_isSome_append {s : Str} (q : Str)
    (h : (examplesField s).isSome = true) :
    (examplesField (s ++ q)).isSome = true := by
  unfold examplesField at h ⊢
  by_cases he : (tagScanAll (strOf "example") s).isEmpty = true
  · rw [if_pos he] at h
    cases h
  · have hne : tagScanAll (strOf "example") s ≠ [] := by
      simpa [List.isEmpty_iff] using he
    have hne' := tagScanAll_append_ne_nil (strOf "example") q s.length s le_rfl hne
    rw [if_neg (by simpa [List.isEmpty_iff] using hne')]
    rfl

theorem hookTypePhraseField_isSome_append {s : Str} (q : Str)
    (h : (hookTypePhraseField s).isSome = true) :
    (hookTypePhraseField (s ++ q)).isSome = true := by
  unfold hookTypePhraseField at h ⊢
  rw [List.find?_isSome] at h ⊢
  obtain ⟨x, hx, hpred⟩ := h
  refine ⟨x, hx, ?_⟩
  rw [lowerStr, List.map_append]
  exact containsSub_append (lowerStr q) hpred

theorem foundPreHook_append {s : Str} (q : Str) (h : foundPreHook s = true) :
    foundPreHook (s ++ q) = true := by
  simp only [foundPreHook, Bool.or_eq_true] at h ⊢
  rcases h with (((((((h | h) | h) | h) | h) | h) | h) | h)
  · simp [tagScalarField_isSome_append q h]
  · simp [tagScalarField_isSome_append q h]
  · simp [tagScalarField_isSome_append q h]
  · simp [gasEstimateField_isSome_append q h]
  · simp [complexityField_isSome_append q h]
  · simp [functionalitiesField_isSome_append q h]
  · simp [tagScalarField_isSome_append q h]
  · simp [examplesField_isSome_append q h]

theorem hookTypeField_isSome_append {s : Str} (q : Str)
    (h : (hookTypeField s).isSome = true) :
    (hookTypeField (s ++ q)).isSome = true := by
  unfold hookTypeField at h ⊢
  cases hp : hookTypePhraseField s with
  | some x =>
    have hs := hookTypePhraseField_isSome_append q (isSome_of_eq_some hp)
    cases hp' : hookTypePhraseField (s ++ q) with
    | none => rw [hp'] at hs; simp at hs
    | some y => simp [hp']
  | none =>
    rw [hp] at h
    by_cases hfp : foundPreHook s = true
    · have hfp' := foundPreHook_append q hfp
      cases hp' : hookTypePhraseField (s ++ q) with
      | some y => simp [hp']
      | none => simp [hp', hfp']
    · rw [if_neg hfp] at h
      simp at h

theorem foundAnyData_append {s : Str} (q : Str) (h : foundAnyData s = true) :
    foundAnyData (s ++ q) = true := by
  simp only [foundAnyData, Bool.or_eq_true] at h ⊢
  rcases h with ((h | h) | h)
  · simp [foundPreHook_append q h]
  · simp [hookTypePhraseField_isSome_append q h]
  · simp [tagScalarField_isSome_append q h]

theorem extractTags_eq_ite (content : Str) :
    extractTagsFromContent content
      = if foundAnyData content then some (fullRecord content) else none := rfl

theorem fullRecord_of_not_found {content : Str}
    (h : foundAnyData content = false) : fullRecord content = {} := by
  have h0 := h
  simp only [foundAnyData, Bool.or_eq_false_iff] at h0
  obtain ⟨⟨h8, hph⟩, hrep⟩ := h0
  have h8' := h8
  simp only [foundPreHook, Bool.or_eq_false_iff] at h8'
  obtain ⟨⟨⟨⟨⟨⟨⟨hn, hd⟩, hc⟩, hg⟩, hcx⟩, hfn⟩, ht⟩, hex⟩ := h8'
  have hht : hookTypeField content = none := by
    unfold hookTypeField
    rw [eq_none_of_isSome_false hph, h8]
    simp
  unfold fullRecord
  rw [eq_none_of_isSome_false hn, eq_none_of_isSome_false hd,
    eq_none_of_isSome_false hc, eq_none_of_isSome_false hg,
    eq_none_of_isSome_false hcx, eq_none_of_isSome_false hfn,
    eq_none_of_isSome_false ht, eq_none_of_isSome_false hex, hht,
    eq_none_of_isSome_false hrep]

/-- The record built by one extraction pass, `none` collapsed to the empty
record: this is always just the field-wise pass. -/
theorem extractedRecord_eq (content : Str) :
    extractedRecord content = fullRecord content := by
  unfold extractedRecord
  rw [extractTags_eq_ite]
  by_cases hf : foundAnyData content = true
  · rw [if_pos hf]
    rfl
  · rw [if_neg hf]
    have hx := fullRecord_of_not_found (by simpa using hf)
    rw [hx]
    rfl

theorem mergeField_eq_right {α : Type} {a b : Option α}
    (h : a.isSome = true → b.isSome = true) : mergeField a b = b := by
  cases b with
  | some v => rfl
  | none =>
    cases a with
    | none => rfl
    | some v => exact absurd (h rfl) (by simp)

theorem mergeField_isSome_left {α : Type} {a : Option α} (b : Option α)
    (h : a.isSome = true) : (mergeField a b).isSome = true := by
  cases b with
  | some v => rfl
  | none => exact h

theorem mergeData_eq_right {a b : UniswapHookData}
    (e1 : a.name.isSome = true → b.name.isSome = true)
    (e2 : a.description.isSome = true → b.description.isSome = true)
    (e3 : a.code.isSome = true → b.code.isSome = true)
    (e4 : a.gasEstimate.isSome = true → b.gasEstimate.isSome = true)
    (e5 : a.complexity.isSome = true → b.complexity.isSome = true)
    (e6 : a.functionalities.isSome = true → b.functionalities.isSome = true)
    (e7 : a.dependencies.isSome = true → b.dependencies.isSome = true)
    (e8 : a.testCode.isSome = true → b.testCode.isSome = true)
    (e9 : a.examples.isSome = true → b.examples.isSome = true)
    (e10 : a.hookType.isSome = true → b.hookType.isSome = true)
    (e11 : a.version.isSome = true → b.version.isSome = true)
    (e12 : a.replyContent.isSome = true → b.replyContent.isSome = true) :
    mergeData a b = b := by
  obtain ⟨b1, b2, b3, b4, b5, b6, b7, b8, b9, b10, b11, b12⟩ := b
  unfold mergeData
  simp only [UniswapHookData.mk.injEq]
  exact ⟨mergeField_eq_right e1, mergeField_eq_right e2,
    mergeField_eq_right e3, mergeField_eq_right e4, mergeField_eq_right e5,
    mergeField_eq_right e6, mergeField_eq_right e7, mergeField_eq_right e8,
    mergeField_eq_right e9, mergeField_eq_right e10, mergeField_eq_right e11,
    mergeField_eq_right e12⟩

theorem mergeData_full_append (p q : Str) :
    mergeData (fullRecord p) (fullRecord (p ++ q)) = fullRecord (p ++ q) :=
  mergeData_eq_right
    (tagScalarField_isSome_append q)
    (tagScalarField_isSome_append q)
    (tagScalarField_isSome_append q)
    (gasEstimateField_isSome_append q)
    (complexityField_isSome_append q)
    (functionalitiesField_isSome_append q)
    (fun h => by simp [fullRecord] at h)
    (tagScalarField_isSome_append q)
    (examplesField_isSome_append q)
    (hookTypeField_isSome_append q)
    (fun h => by simp [fullRecord] at h)
    (tagScalarField_isSome_append q)

theorem processFragment_state (h : JsonStreamHandler) (f : Str) :
    (h.processFragment f).1 =
      { rawContent := h.rawContent ++ f,
        lastParsedData :=
          match extractTagsFromContent (h.rawContent ++ f) with
          | some hd => mergeData h.lastParsedData hd
          | none => h.lastParsedData } := rfl

theorem processFragment_step {h : JsonStreamHandler} (f : Str)
    (hinv : h.lastParsedData = extractedRecord h.rawContent) :
    ((h.processFragment f).1).lastParsedData
      = extractedRecord (h.rawContent ++ f) := by
  rw [processFragment_state]
  rw [extractTags_eq_ite]
  by_cases hf : foundAnyData (h.rawContent ++ f) = true
  · rw [if_pos hf]
    show mergeData h.lastParsedData (fullRecord (h.rawContent ++ f)) = _
    rw [hinv, extractedRecord_eq, extractedRecord_eq]
    exact mergeData_full_append h.rawContent f
  · rw [if_neg hf]
    show h.lastParsedData = _
    rw [hinv, extractedRecord_eq, extractedRecord_eq]
    have hraw : foundAnyData h.rawContent = false := by
      by_contra hc
      have hc' : foundAnyData h.rawContent = true := by
        simpa using hc
      exact hf (foundAnyData_append f hc')
    have hf' : foundAnyData (h.rawContent ++ f) = false := by
      simpa using hf
    rw [fullRecord_of_not_found hraw, fullRecord_of_not_found hf']

/-- Session invariant of `JsonStreamHandler`: after any sequence of
fragments, the accumulated buffer is the concatenation of the fragments,
and `lastParsedData` coincides with one extraction pass over that whole
buffer.  (This is what makes the per-fragment spread merge invisible: the
buffer is never trimmed, and each pass re-extracts everything.) -/
theorem runFragments_spec (frags : List Str) :
    (runFragments frags).rawContent = joinStr frags ∧
    (runFragments frags).lastParsedData = extractedRecord (joinStr frags) := by
  induction frags using List.reverseRecOn with
  | nil =>
    refine ⟨rfl, ?_⟩
    show ({} : UniswapHookData) = extractedRecord []
    have hempty : foundAnyData [] = false := by decide
    unfold extractedRecord
    rw [extractTags_eq_ite, if_neg (by simp [hempty])]
    rfl
  | append_singleton l f ih =>
    obtain ⟨hraw, hlast⟩ := ih
    have hrun : runFragments (l ++ [f]) = ((runFragments l).processFragment f).1 := by
      simp [runFragments, List.foldl_append]
    have hjoin : joinStr (l ++ [f]) = joinStr l ++ f := by
      simp [joinStr, List.foldl_append]
    refine ⟨?_, ?_⟩
    · rw [hrun, hjoin, processFragment_state]
      show (runFragments l).rawContent ++ f = _
      rw [hraw]
    · rw [hrun, hjoin, processFragment_step f (by rw [hlast, hraw]), hraw]

/-! ### The ChatComponent buffer loop: removal and fixpoint -/

theorem regionSplit_decomp {ot ct buf pre mid post : Str}
    (h : regionSplit ot ct buf = some (pre, mid, post)) :
    buf = pre ++ ot ++ mid ++ ct ++ post := by
  simp only [regionSplit] at h
  cases ho : findSub ot buf with
  | none => simp [ho] at h
  | some i =>
    simp only [ho] at h
    cases hc : findSub ct (buf.drop (i + ot.length)) with
    | none => simp [hc] at h
    | some j =>
      simp only [hc, Option.some.injEq, Prod.mk.injEq] at h
      obtain ⟨h1, h2, h3⟩ := h
      subst h1
      subst h2
      subst h3
      have hdi : (buf.drop i).drop ot.length = buf.drop (i + ot.length) := by
        rw [List.drop_drop]
        try congr 1
        try omega
      have hstep1 : buf.drop i = ot ++ buf.drop (i + ot.length) := by
        have hdec := strStarts_decomp (findSub_starts ho)
        rw [hdec, hdi]
      have hdj : ((buf.drop (i + ot.length)).drop j).drop ct.length
          = buf.drop (i + ot.length + j + ct.length) := by
        rw [List.drop_drop, List.drop_drop]
        try congr 1
        try omega
      have hstep2 : (buf.drop (i + ot.length)).drop j
          = ct ++ buf.drop (i + ot.length + j + ct.length) := by
        have hdec := strStarts_decomp (findSub_starts hc)
        rw [hdec, hdj]
      calc buf = buf.take i ++ buf.drop i := (List.take_append_drop i buf).symm
        _ = buf.take i ++ (ot ++ buf.drop (i + ot.length)) := by rw [hstep1]
        _ = buf.take i ++ (ot ++ ((buf.drop (i + ot.length)).take j
              ++ (buf.drop (i + ot.length)).drop j)) := by
            rw [List.take_append_drop]
        _ = buf.take i ++ (ot ++ ((buf.drop (i + ot.length)).take j
              ++ (ct ++ buf.drop (i + ot.length + j + ct.length)))) := by
            rw [hstep2]
        _ = buf.take i ++ ot ++ (buf.drop (i + ot.length)).take j
              ++ ct ++ buf.drop (i + ot.length + j + ct.length) := by
            simp [List.append_assoc]

theorem regionSplit_removal_shorter {ot ct buf pre mid post : Str}
    (hot : ot ≠ []) (h : regionSplit ot ct buf = some (pre, mid, post)) :
    (pre ++ post).length < buf.length := by
  rw [regionSplit_decomp h]
  simp only [List.length_append]
  have hlen : 0 < ot.length := List.length_pos.mpr hot
  omega

theorem chatStep_shrinks {s s' : ChatState} {sig : Option Str}
    (h : chatStep s = some (s', sig)) :
    s'.buffer.length < s.buffer.length := by
  unfold chatStep at h
  cases hr : regionSplit (strOf "<reply>") (strOf "</reply>") s.buffer with
  | some tpl =>
    obtain ⟨pre, mid, post⟩ := tpl
    simp only [hr] at h
    have hb : s'.buffer = pre ++ post := by
      by_cases hm : (jsTrim mid).isEmpty = true
      · rw [if_pos hm] at h
        cases h
        rfl
      · rw [if_neg hm] at h
        cases h
        rfl
    rw [hb]
    exact regionSplit_removal_shorter (by decide) hr
  | none =>
    simp only [hr] at h
    cases hr2 : regionSplit (strOf "<hookCode>") (strOf "</hookCode>")
        s.buffer with
    | none => simp [hr2] at h
    | some tpl =>
      obtain ⟨pre, mid, post⟩ := tpl
      simp only [hr2] at h
      have hb : s'.buffer = pre ++ post := by
        by_cases hm : (jsTrim mid).isEmpty = true
        · rw [if_pos hm] at h
          cases h
          rfl
        · rw [if_neg hm] at h
          cases h
          rfl
      rw [hb]
      exact regionSplit_removal_shorter (by decide) hr2

theorem chatDrain_fixpoint :
    ∀ fuel s, s.buffer.length ≤ fuel → chatStep (chatDrain fuel s).1 = none := by
  intro fuel
  induction fuel with
  | zero =>
    intro s hs
    have hb : s.buffer = [] := List.eq_nil_of_length_eq_zero (Nat.le_zero.mp hs)
    show chatStep s = none
    unfold chatStep
    rw [hb]
    simp [regionSplit, findSub, strOf, strStarts]
  | succ n ih =>
    intro s hs
    simp only [chatDrain]
    cases hstep : chatStep s with
    | none => exact hstep
    | some pr =>
      obtain ⟨s', sig⟩ := pr
      have hlt := chatStep_shrinks hstep
      exact ih s' (by omega)

/-! ### The claims -/

set_option maxRecDepth 100000 in
/-- C1 (counterexample): feeding `<name>A</name>` and then `<name>B</name>`
does NOT give `name = "B"` — the extraction pass re-runs a first-match scan
over the accumulated, never-trimmed buffer, so the first completed region
keeps winning. -/
theorem c1_counterexample :
    ¬ ((runFragments [strOf "<name>A</name>", strOf "<name>B</name>"]
        ).lastParsedData.name = some (strOf "B")) := by
  decide

set_option maxRecDepth 100000 in
/-- C1 (amended): for every session the `name` field equals the result of
the first-match scalar extraction over the whole accumulated buffer
(first-write-wins); in particular the two-fragment scenario yields `"A"`,
not `"B"`. -/
theorem c1_amended_first_region_wins :
    (∀ frags : List Str,
      (runFragments frags).lastParsedData.name
        = tagScalarField (strOf "name") (joinStr frags))
    ∧ (runFragments [strOf "<name>A</name>", strOf "<name>B</name>"]
        ).lastParsedData.name = some (strOf "A") := by
  constructor
  · intro frags
    rw [(runFragments_spec frags).2, extractedRecord_eq]
    rfl
  · decide

/-- C2: split-boundary invariance.  Feeding any fragmentation of a payload
through `processFragment` and finalizing gives the same record as feeding
the whole payload as one fragment: extraction always re-runs over the full
accumulated buffer, and the final pass overwrites every key it reports
while a key it does not report was never reported by any earlier pass. -/
theorem c2_split_boundary_invariance (frags : List Str) :
    (runFragments frags).getFinalData
      = (runFragments [joinStr frags]).getFinalData := by
  unfold JsonStreamHandler.getFinalData
  rw [(runFragments_spec frags).2, (runFragments_spec [joinStr frags]).2]
  have hj : joinStr [joinStr frags] = joinStr frags := by
    simp [joinStr]
  rw [hj]

set_option maxRecDepth 100000 in
/-- C3 (counterexample): in `JsonStreamHandler.processFragment` a fully
extracted region is NOT removed from the buffer: after ingesting
`<name>A</name>` the name is extracted, yet the buffer still contains the
whole region text. -/
theorem c3_counterexample :
    ¬ ((JsonStreamHandler.processFragment {} (strOf "<name>A</name>")
          ).1.lastParsedData.name = some (strOf "A")
        → containsSub (strOf "<name>A</name>")
            ((JsonStreamHandler.processFragment {} (strOf "<name>A</name>")
              ).1.rawContent) = false) := by
  decide

/-- C3 (amended): the consumption rule holds for the `ChatComponent`
reply-buffer loop — a completed region spans exactly the opening tag
through the closing tag, its removal leaves prefix-plus-suffix, and the
loop re-runs until no completed `reply`/`hookCode` region remains — while
`JsonStreamHandler.processFragment` never trims its accumulated buffer. -/
theorem c3_amended_consumption :
    (∀ ot ct buf pre mid post : Str,
        regionSplit ot ct buf = some (pre, mid, post) →
          buf = pre ++ ot ++ mid ++ ct ++ post)
    ∧ (∀ s : ChatState, chatStep (processBufferModel s).1 = none)
    ∧ (∀ (h : JsonStreamHandler) (f : Str),
        (h.processFragment f).1.rawContent = h.rawContent ++ f) := by
  refine ⟨?_, ?_, ?_⟩
  · intro ot ct buf pre mid post h
    exact regionSplit_decomp h
  · intro s
    exact chatDrain_fixpoint s.buffer.length s le_rfl
  · intro h f
    rfl

set_option maxRecDepth 100000 in
/-- C3 (witness): the consumption decomposition evaluated on a concrete
buffer with a completed `reply` region. -/
theorem c3_witness :
    regionSplit (strOf "<reply>") (strOf "</reply>")
        (strOf "x<reply>hi</reply>y")
      = some (strOf "x", strOf "hi", strOf "y")
    ∧ strOf "x<reply>hi</reply>y"
      = strOf "x" ++ strOf "<reply>" ++ strOf "hi"
          ++ strOf "</reply>" ++ strOf "y" :=
  ⟨by decide,
    c3_amended_consumption.1 (strOf "<reply>") (strOf "</reply>")
      (strOf "x<reply>hi</reply>y") (strOf "x") (strOf "hi") (strOf "y")
      (by decide)⟩

set_option maxRecDepth 100000 in
/-- C4: `parseInt` never throws, so the `try`/`catch` around the
`gasEstimate` parse is inert: a completed non-numeric region stores `NaN`
(`some none`) instead of leaving the field unset — while the page-side
parser `handleHookCodeData`, which guards with `isNaN`, drops it as the
spec describes. -/
theorem c4_gas_nan_stored :
    ((runFragments [strOf "<gasEstimate>abc</gasEstimate>"]
        ).lastParsedData.gasEstimate = some none)
    ∧ ((handleHookCodeData {}
          (strOf "<hookCode>X</hookCode><gasEstimate>abc</gasEstimate>")
        ).streamingHookCode.gasEstimate = none) := by
  refine ⟨by decide, by decide⟩

set_option maxRecDepth 1000000 in
/-- C5 (counterexample): feeding an examples block with two entries and
then a larger block repeating them plus a third yields five entries, not
three — the accumulated buffer retains the first block and the rebuild
re-scans every occurrence. -/
theorem c5_counterexample :
    ¬ ((runFragments
        [strOf "<examples><example>E1</example><example>E2</example></examples>",
         strOf "<examples><example>E1</example><example>E2</example><example>E3</example></examples>"]
        ).lastParsedData.examples
      = some [strOf "E1", strOf "E2", strOf "E3"]) := by
  decide

set_option maxRecDepth 1000000 in
/-- C5 (amended): the `examples` list always equals the global re-scan of
the whole accumulated buffer (rebuilt each pass, so repeated blocks
duplicate); the two-block scenario yields five entries. -/
theorem c5_amended_rescan_duplicates :
    (∀ frags : List Str,
      (runFragments frags).lastParsedData.examples
        = examplesField (joinStr frags))
    ∧ (runFragments
        [strOf "<examples><example>E1</example><example>E2</example></examples>",
         strOf "<examples><example>E1</example><example>E2</example><example>E3</example></examples>"]
        ).lastParsedData.examples
      = some [strOf "E1", strOf "E2", strOf "E1", strOf "E2", strOf "E3"] := by
  constructor
  · intro frags
    rw [(runFragments_spec frags).2, extractedRecord_eq]
    rfl
  · decide

/-- C6: a session whose accumulated buffer contains an opened
`<description>` region with no closing tag anywhere finalizes with the
`description` field absent — the partial text is never stored. -/
theorem c6_unterminated_leaves_unset (frags : List Str) (u t : Str)
    (_hshape : joinStr frags = u ++ strOf "<description>" ++ t)
    (hnoclose : containsSub (strOf "</description>") (joinStr frags) = false) :
    (runFragments frags).getFinalData.description = none := by
  unfold JsonStreamHandler.getFinalData
  show (runFragments frags).lastParsedData.description = none
  rw [(runFragments_spec frags).2, extractedRecord_eq]
  show tagScalarField (strOf "description") (joinStr frags) = none
  unfold tagScalarField
  have hcl : tagClose (strOf "description") = strOf "</description>" := by
    decide
  rw [firstTagMatch_none_of_no_close (by rw [hcl]; exact hnoclose)]

set_option maxRecDepth 100000 in
/-- C6 (witness): the opening tag split across two fragments, with no
closing tag; the finalized record has no `description`. -/
theorem c6_witness :
    joinStr [strOf "<descri", strOf "ption>partial text"]
        = [] ++ strOf "<description>" ++ strOf "partial text"
    ∧ containsSub (strOf "</description>")
        (joinStr [strOf "<descri", strOf "ption>partial text"]) = false
    ∧ (runFragments [strOf "<descri", strOf "ption>partial text"]
        ).getFinalData.description = none :=
  ⟨by decide, by decide,
    c6_unterminated_leaves_unset
      [strOf "<descri", strOf "ption>partial text"] []
      (strOf "partial text") (by decide) (by decide)⟩

/-- C7: `processFragment` is total (the source wraps its body in a
`try`/`catch` that re-returns the same shape); it always returns the
updated partial record together with the `_rawContent` view, the new
buffer is exactly the old buffer plus the fragment — so any malformed or
incomplete region remains in the buffer — and a field that was already
set is never unset by the merge. -/
theorem c7_processFragment_safe (h : JsonStreamHandler) (f : Str) :
    (h.processFragment f).1.rawContent = h.rawContent ++ f
    ∧ (h.processFragment f).2.2 = h.rawContent ++ f
    ∧ (h.processFragment f).2.1 = (h.processFragment f).1.lastParsedData
    ∧ (∀ pat : Str, containsSub pat h.rawContent = true →
        containsSub pat ((h.processFragment f).1.rawContent) = true)
    ∧ (∀ v : Str, h.lastParsedData.name = some v →
        ((h.processFragment f).1.lastParsedData.name).isSome = true) := by
  refine ⟨rfl, rfl, rfl, ?_, ?_⟩
  · intro pat hpat
    exact containsSub_append f hpat
  · intro v hv
    rw [processFragment_state]
    cases hx : extractTagsFromContent (h.rawContent ++ f) with
    | none => exact isSome_of_eq_some hv
    | some hd => exact mergeField_isSome_left hd.name (isSome_of_eq_some hv)

set_option maxRecDepth 100000 in
/-- C7 (witness): a fragment that completes nothing is retained whole, and
a previously set field survives the step. -/
theorem c7_witness :
    containsSub (strOf "<na")
      ((JsonStreamHandler.processFragment
          { rawContent := strOf "<na",
            lastParsedData := { name := some (strOf "N") } }
          (strOf "me")).1.rawContent) = true
    ∧ ((JsonStreamHandler.processFragment
          { rawContent := strOf "<na",
            lastParsedData := { name := some (strOf "N") } }
          (strOf "me")).1.lastParsedData.name).isSome = true :=
  ⟨(c7_processFragment_safe
      { rawContent := strOf "<na",
        lastParsedData := { name := some (strOf "N") } }
      (strOf "me")).2.2.2.1 (strOf "<na") (by decide),
   (c7_processFragment_safe
      { rawContent := strOf "<na",
        lastParsedData := { name := some (strOf "N") } }
      (strOf "me")).2.2.2.2 (strOf "N") (by decide)⟩

/-- C8: when the buffer holds a completed (truthy) `hookCode` region and
none of the six phrase literals occurs in the lowercased buffer, the
session's `hookType` resolves to `custom`. -/
theorem c8_hooktype_defaults_custom (frags : List Str) (g : Str)
    (hcode : firstTagMatch (strOf "hookCode") (joinStr frags) = some g)
    (hg : g ≠ [])
    (hnophrase : ∀ p ∈ hookTypes,
      containsSub p (lowerStr (joinStr frags)) = false) :
    (runFragments frags).lastParsedData.hookType = some (strOf "custom") := by
  rw [(runFragments_spec frags).2, extractedRecord_eq]
  show hookTypeField (joinStr frags) = some (strOf "custom")
  unfold hookTypeField
  have hph : hookTypePhraseField (joinStr frags) = none := by
    unfold hookTypePhraseField
    rw [List.find?_eq_none]
    intro x hx
    simp [hnophrase x hx]
  rw [hph]
  have hcodefield :
      (tagScalarField (strOf "hookCode") (joinStr frags)).isSome = true := by
    unfold tagScalarField
    simp only [hcode]
    rw [if_neg (by simpa [List.isEmpty_iff] using hg)]
    rfl
  have hfp : foundPreHook (joinStr frags) = true := by
    simp [foundPreHook, hcodefield]
  rw [hfp]
  simp

set_option maxRecDepth 100000 in
/-- C8 (witness): a buffer consisting of one `hookCode` region and no
phrase literal. -/
theorem c8_witness :
    firstTagMatch (strOf "hookCode")
        (joinStr [strOf "<hookCode>X</hookCode>"]) = some (strOf "X")
    ∧ (runFragments [strOf "<hookCode>X</hookCode>"]
        ).lastParsedData.hookType = some (strOf "custom") :=
  ⟨by decide,
    c8_hooktype_defaults_custom [strOf "<hookCode>X</hookCode>"] (strOf "X")
      (by decide) (by decide) (by decide)⟩

/-- Closed form of one `error`-frame step: the synchronous chain
`handleStreamError` → `resetStreamingState false` →
`handleStreamingChange false`, field by field. -/
theorem processChunk_error_eq (p : PageState) (msg : Str) :
    processChunk p (StreamChunk.error msg)
      = { chat := { buffer := [],
                    accumulatedReply := p.chat.accumulatedReply,
                    parsedReply := p.chat.parsedReply,
                    parsedHook := p.chat.parsedHook },
          streamingReply := [], isStreamingReply := false, isTyping := false,
          streamError := none, pageError := some msg, isStreaming := false,
          streamingComplete := true,
          streamingHookCode := p.streamingHookCode,
          streamingHookRaw := p.streamingHookRaw,
          isStreamingHookCode := p.isStreamingHookCode,
          jsonData :=
            match p.handler with
            | some hdl =>
              if (!(p.streamingHookCode == ({} : UniswapHookData))
                  || p.streamingHookRaw.isSome) = true
              then hdl.getFinalData else p.jsonData
            | none => p.jsonData,
          handler := p.handler } := by
  obtain ⟨pc, f1, f2, f3, f4, f5, f6, f7, f8, f9, f10, f11, hdlr⟩ := p
  show handleStreamError _ msg = _
  unfold handleStreamError resetStreamingState handleStreamingChange
    hookViewHasKeys
  dsimp only
  cases hdlr with
  | none => simp
  | some hdl =>
    simp
    split_ifs <;> rfl

/-- C9: handling an `error` frame surfaces the message to the page and
finishes the stream without clearing or altering any previously extracted
state: the accumulated reply, the parsed content, the `streamingHookCode`
view (the partial record) and the handler state are all preserved, so an
already extracted field value stays retrievable. -/
theorem c9_error_frame_preserves_state (p : PageState) (msg v : Str)
    (hname : p.streamingHookCode.name = some v) :
    (processChunk p (StreamChunk.error msg)).chat.accumulatedReply
        = p.chat.accumulatedReply
    ∧ (processChunk p (StreamChunk.error msg)).chat.parsedReply
        = p.chat.parsedReply
    ∧ (processChunk p (StreamChunk.error msg)).chat.parsedHook
        = p.chat.parsedHook
    ∧ (processChunk p (StreamChunk.error msg)).streamingHookCode
        = p.streamingHookCode
    ∧ (processChunk p (StreamChunk.error msg)).streamingHookCode.name
        = some v
    ∧ (processChunk p (StreamChunk.error msg)).handler = p.handler
    ∧ (processChunk p (StreamChunk.error msg)).pageError = some msg
    ∧ (processChunk p (StreamChunk.error msg)).streamingComplete = true := by
  rw [processChunk_error_eq]
  exact ⟨rfl, rfl, rfl, rfl, hname, rfl, rfl, rfl⟩

set_option maxRecDepth 100000 in
/-- C9 (witness): a session that already extracted `name = "Fee Hook"`
keeps it retrievable after an error frame, with the error surfaced. -/
theorem c9_witness :
    ((processChunk
        { streamingHookCode := { name := some (strOf "Fee Hook") } }
        (StreamChunk.error (strOf "boom"))).streamingHookCode.name
      = some (strOf "Fee Hook"))
    ∧ (processChunk
        { streamingHookCode := { name := some (strOf "Fee Hook") } }
        (StreamChunk.error (strOf "boom"))).pageError = some (strOf "boom") :=
  ⟨(c9_error_frame_preserves_state
      { streamingHookCode := { name := some (strOf "Fee Hook") } }
      (strOf "boom") (strOf "Fee Hook") (by decide)).2.2.2.2.1,
   (c9_error_frame_preserves_state
      { streamingHookCode := { name := some (strOf "Fee Hook") } }
      (strOf "boom") (strOf "Fee Hook") (by decide)).2.2.2.2.2.2.1⟩

set_option maxRecDepth 100000 in
/-- C10 (counterexample): a completed `<name>` pair whose content is
whitespace-only DOES set the field (to the empty string after trimming)
and DOES count as structured data, defaulting `hookType` to `custom` —
contradicting the claim that it never sets the field and that such a
buffer produces no defaulted `hookType`. -/
theorem c10_counterexample :
    ¬ ((runFragments [strOf "<name>   </name>"]).lastParsedData.name = none
       ∧ (runFragments [strOf "<name>   </name>"]).lastParsedData.hookType
          = none) := by
  decide

set_option maxRecDepth 100000 in
/-- C10 (amended): only a literally empty captured group (`<name></name>`)
is skipped — it sets no field and triggers no `custom` default; a
whitespace-only group is truthy, so the field is set to the trimmed empty
string and `hookType` defaults to `custom`.  In general an empty captured
group never sets the scalar field. -/
theorem c10_amended_empty_group :
    ((runFragments [strOf "<name></name>"]).lastParsedData = {})
    ∧ ((runFragments [strOf "<name>   </name>"]).lastParsedData.name
        = some [])
    ∧ ((runFragments [strOf "<name>   </name>"]).lastParsedData.hookType
        = some (strOf "custom"))
    ∧ (∀ content : Str, firstTagMatch (strOf "name") content = some [] →
        (extractedRecord content).name = none) := by
  refine ⟨by decide, by decide, by decide, ?_⟩
  intro content hm
  rw [extractedRecord_eq]
  show tagScalarField (strOf "name") content = none
  unfold tagScalarField
  simp only [hm]
  simp

set_option maxRecDepth 100000 in
/-- C10 (witness): a literally empty `name` group in a larger buffer sets
nothing. -/
theorem c10_witness :
    firstTagMatch (strOf "name") (strOf "zz<name></name>") = some []
    ∧ (extractedRecord (strOf "zz<name></name>")).name = none :=
  ⟨by decide,
    c10_amended_empty_group.2.2.2 (strOf "zz<name></name>") (by decide)⟩
